import Mathlib

/-!
Shallow embedding of the snowpack import rewriter
(src/snowpack/src/rewrite-imports.ts) and of the build command controller
(src/unnamed/part_000, the build command module) used to check the
specification claims.  Source text is modelled as `List Char`; file URLs and
specifiers handled by the crawler are modelled as `String`.  Regular
expressions and helpers living in repository files that are not part of the
provided sources (util.ts, scan-imports.ts) are modelled from the spec and
marked as such in their doc comments.
-/

namespace Snowpack

/-- Double quote character. -/
def quoteChar : Char := Char.ofNat 34

/-- Single quote (apostrophe) character. -/
def apostChar : Char := Char.ofNat 39

/-- Backtick character. -/
def backtickChar : Char := Char.ofNat 96

/-- Backslash character. -/
def backslashChar : Char := Char.ofNat 92

/-- spliceString of rewrite-imports.ts:
`source.slice(0, start) + (withSlice || '') + source.slice(end)`. -/
def spliceString (source withSlice : List Char) (s e : Nat) : List Char :=
  source.take s ++ withSlice ++ source.drop e

/-- JS `string.substring(s, e)` for `s ≤ e` (clamping at the length). -/
def sublist (l : List Char) (s e : Nat) : List Char := (l.take e).drop s

/-- Whitespace characters recognised by the regex class `\s` (the cases
relevant to source text: space, tab, newline, carriage return). -/
def isWs (c : Char) : Bool :=
  c = ' ' || c = Char.ofNat 9 || c = Char.ofNat 10 || c = Char.ofNat 13

/-- Trim leading and trailing whitespace, JS `string.trim()`. -/
def trimWs (l : List Char) : List Char :=
  ((l.dropWhile isWs).reverse.dropWhile isWs).reverse

/-- JS `string.replace(pat, '')` with a plain-string pattern: remove the
first occurrence of `pat`, leave the string unchanged when `pat` does not
occur (used for `.replace('.proxy.js', '')` in transformCssImports). -/
def removeFirst (pat : List Char) : List Char → List Char
  | [] => []
  | c :: rest =>
    if pat.isPrefixOf (c :: rest) then (c :: rest).drop pat.length
    else c :: removeFirst pat rest

/-- JS `array.join(' ')` on a list of strings. -/
def joinSpace : List (List Char) → List Char
  | [] => []
  | [x] => x
  | x :: xs => x ++ ' ' :: joinSpace xs

/-- Escape of one character inside a JSON string literal, as produced by
`JSON.stringify` on a string. -/
def jsonEscapeChar (c : Char) : List Char :=
  if c = quoteChar then [backslashChar, quoteChar]
  else if c = backslashChar then [backslashChar, backslashChar]
  else if c = Char.ofNat 10 then [backslashChar, 'n']
  else if c = Char.ofNat 13 then [backslashChar, 'r']
  else if c = Char.ofNat 9 then [backslashChar, 't']
  else [c]

/-- `JSON.stringify` applied to a string: the double-quoted escaped literal. -/
def jsonQuote (s : List Char) : List Char :=
  quoteChar :: List.flatten (s.map jsonEscapeChar) ++ [quoteChar]

/-- Scan for the end `*/` of a block comment whose opener was consumed:
returns the body chars and the text after the closer, `none` if unclosed. -/
def findCommentEnd : List Char → Option (List Char × List Char)
  | '*' :: '/' :: rest => some ([], rest)
  | c :: rest => (findCommentEnd rest).map (fun p => (c :: p.1, p.2))
  | [] => none

/-- Find the first complete block comment `/* ... */` (the non-greedy regex
`WEBPACK_MAGIC_COMMENT_REGEX` of rewrite-imports.ts): returns the text before
the comment, the comment itself (delimiters included) and the text after it. -/
def findComment : List Char → Option (List Char × List Char × List Char)
  | '/' :: '*' :: rest =>
    match findCommentEnd rest with
    | some (body, after) => some ([], '/' :: '*' :: (body ++ ['*', '/']), after)
    | none => none
  | c :: rest => (findComment rest).map (fun p => (c :: p.1, p.2.1, p.2.2))
  | [] => none

/-- All block comments of a string in order, as found by repeatedly applying
the global regex (fuel-indexed; the fuel `s.length` is always sufficient
because every match consumes at least four characters). -/
def findBlockCommentsGo : Nat → List Char → List (List Char)
  | 0, _ => []
  | n + 1, s =>
    match findComment s with
    | some (_, com, post) => com :: findBlockCommentsGo n post
    | none => []

/-- `spec.match(WEBPACK_MAGIC_COMMENT_REGEX)`, as a list (empty when the JS
match result is `null`). -/
def findBlockComments (s : List Char) : List (List Char) :=
  findBlockCommentsGo s.length s

/-- Remove every block comment (fuel-indexed like `findBlockComments`). -/
def removeBlockCommentsGo : Nat → List Char → List Char
  | 0, s => s
  | n + 1, s =>
    match findComment s with
    | some (pre, _, post) => pre ++ removeBlockCommentsGo n post
    | none => s

/-- Strip all block comments from a string. -/
def removeBlockComments (s : List Char) : List Char :=
  removeBlockCommentsGo s.length s

/-- Quote characters that can delimit a dynamic-import literal. -/
def isQuoteLike (c : Char) : Bool :=
  c = quoteChar || c = apostChar || c = backtickChar

/-- Modelled from the spec: `matchDynamicImportValue` lives in
src/snowpack/src/scan-imports.ts, which is not under the provided sources.
Per the spec it strips comments and yields the argument of a dynamic import
only when it reduces to a literal (a single unconcatenated string, or a
template literal with no interpolation), returning the literal's inner
value. -/
def matchDynamicImportValue (s : List Char) : Option (List Char) :=
  match trimWs (removeBlockComments s) with
  | [] => none
  | q :: rest =>
    if isQuoteLike q then
      match rest.reverse with
      | [] => none
      | q2 :: midRev =>
        if q2 = q && midRev.all (fun c => !isQuoteLike c) then some midRev.reverse
        else none
    else none

/-- One record of the es-module-lexer `parse` result, restricted to the
fields used by rewrite-imports.ts: the specifier span `[s, e)` and the
dynamic flag `d` (`-2` for `import.meta`, `-1` for a static import, `≥ 0`
for a dynamic import). The lexer itself is an external npm dependency, so
its output is passed in as data. -/
structure EsmImport where
  s : Nat
  e : Nat
  d : Int
deriving DecidableEq

/-- scanCodeImportsExports of rewrite-imports.ts: filter the lexer records,
dropping `import.meta` records and dynamic imports whose argument does not
reduce to a non-empty literal (the JS truthiness test
`!!matchDynamicImportValue(...)`). -/
def scanCodeImportsExports (code : List Char) (parsed : List EsmImport) :
    List EsmImport :=
  parsed.filter fun imp =>
    if imp.d = -2 then false
    else if imp.d > -1 then
      match matchDynamicImportValue (sublist code imp.s imp.e) with
      | some v => !v.isEmpty
      | none => false
    else true

/-- The loop body of transformEsmImports: rewrite one import record inside
the current text. For a dynamic import the magic comments of the original
span are collected, the specifier is extracted as the literal value, and the
replacement is re-quoted with `JSON.stringify` after the comments joined by
spaces; for a static import the replacement is spliced verbatim. -/
def rewriteImport (replaceImport : List Char → List Char) (rewrittenCode : List Char)
    (imp : EsmImport) : List Char :=
  let spec0 := sublist rewrittenCode imp.s imp.e
  if imp.d > -1 then
    let comments := findBlockComments spec0
    let spec := (matchDynamicImportValue spec0).getD []
    let quoted := jsonQuote (replaceImport spec)
    let rewrittenImport :=
      if comments.isEmpty then quoted else joinSpace comments ++ ' ' :: quoted
    spliceString rewrittenCode rewrittenImport imp.s imp.e
  else
    spliceString rewrittenCode (replaceImport spec0) imp.s imp.e

/-- transformEsmImports of rewrite-imports.ts: rewrite every scanned record,
iterating over `imports.reverse()` (descending offsets) so that earlier
splices do not shift the spans of records not yet processed. -/
def transformEsmImports (code : List Char) (replaceImport : List Char → List Char)
    (parsed : List EsmImport) : List Char :=
  ((scanCodeImportsExports code parsed).reverse).foldl (rewriteImport replaceImport) code

/-- Quote characters accepted by the CSS `@import` regex class. -/
def isCssQuote (c : Char) : Bool := c = quoteChar || c = apostChar

/-- Scan for the closing quote of an `@import` rule: the shortest prefix
after which a quote character immediately followed by a semicolon occurs
(the non-greedy `(.*?)['"];` part of the rule regex). -/
def findSpecEnd : List Char → Option (List Char)
  | a :: b :: rest =>
    if isCssQuote a && b = ';' then some []
    else (findSpecEnd (b :: rest)).map (fun t => a :: t)
  | _ => none

/-- Modelled from the spec: `CSS_REGEX` lives in src/snowpack/src/util.ts,
which is not under the provided sources. Per the spec the stylesheet scanner
locates every `@import` rule and captures the quoted URL argument: the
literal `@import`, optional whitespace, an opening quote, the non-greedy
specifier, a closing quote and a semicolon. `matchCssAt` matches the rule at
the head of the string, returning the full match length and the captured
specifier. -/
def matchCssAt (str : List Char) : Option (Nat × List Char) :=
  if "@import".toList.isPrefixOf str then
    match ((str.drop 7).dropWhile isWs) with
    | [] => none
    | q :: rest2 =>
      if isCssQuote q then
        match findSpecEnd rest2 with
        | some spec =>
          some (7 + ((str.drop 7).takeWhile isWs).length + 1 + spec.length + 2, spec)
        | none => none
      else none
  else none

/-- First `@import` match of a string: its index, full length and captured
specifier. -/
def findCssScan : List Char → Option (Nat × Nat × List Char)
  | [] => none
  | c :: rest =>
    match matchCssAt (c :: rest) with
    | some (fl, spec) => some (0, fl, spec)
    | none => (findCssScan rest).map (fun r => (r.1 + 1, r.2.1, r.2.2))

/-- First `@import` match at or after position `pos` (the stateful
`lastIndex` of the global regex). -/
def findCssImport (code : List Char) (pos : Nat) : Option (Nat × Nat × List Char) :=
  (findCssScan (code.drop pos)).map (fun r => (pos + r.1, r.2.1, r.2.2))

/-- The replacement text spliced over a matched `@import` rule:
`@import "${replaceImport(spec).replace('.proxy.js', '')}";`. -/
def cssEmit (replaced : List Char) : List Char :=
  "@import \"".toList ++ removeFirst ".proxy.js".toList replaced ++ "\";".toList

/-- The `while ((match = importRegex.exec(rewrittenCode)))` loop of
transformCssImports: find the next rule at or after the regex's `lastIndex`,
splice the canonical replacement over it, and resume searching at the old
match end. Fuel-indexed; the top-level entry point supplies fuel that is
ample for every input the theorems below evaluate. -/
def transformCssGo (replaceImport : List Char → List Char) :
    Nat → List Char → Nat → List Char
  | 0, code, _ => code
  | n + 1, code, pos =>
    match findCssImport code pos with
    | none => code
    | some (mi, fl, spec) =>
      transformCssGo replaceImport n
        (spliceString code (cssEmit (replaceImport spec)) mi (mi + fl)) (mi + fl)

/-- transformCssImports of rewrite-imports.ts. -/
def transformCssImports (code : List Char) (replaceImport : List Char → List Char) :
    List Char :=
  transformCssGo replaceImport (code.length + 1) code 0

/-- Scan up to and including the first `>` (end of an opening tag): returns
the consumed chars (with the `>`) and the remaining text. -/
def findTagEnd : List Char → Option (List Char × List Char)
  | '>' :: rest => some (['>'], rest)
  | c :: rest => (findTagEnd rest).map (fun p => (c :: p.1, p.2))
  | [] => none

/-- Scan for the first position where `close` occurs: returns the text
before it and the text after it. -/
def findUpToClose (close : List Char) : List Char → Option (List Char × List Char)
  | [] => none
  | c :: rest =>
    if close.isPrefixOf (c :: rest) then some ([], (c :: rest).drop close.length)
    else (findUpToClose close rest).map (fun p => (c :: p.1, p.2))

/-- Modelled from the spec: `HTML_JS_REGEX` / `HTML_STYLE_REGEX` live in
src/snowpack/src/util.ts, which is not under the provided sources. Per the
spec the markup scanner locates every inline block: an opening tag beginning
with `open` up to its `>`, the block body, and the closing tag `close`.
Matching at the head of the string, returns (opening tag, body, full match
length including the closing tag). -/
def matchBlockAt (tagOpen tagClose : List Char) (str : List Char) :
    Option (List Char × List Char × Nat) :=
  if tagOpen.isPrefixOf str then
    match findTagEnd (str.drop tagOpen.length) with
    | some (tagTail, afterTag) =>
      match findUpToClose tagClose afterTag with
      | some (body, _) =>
        some (tagOpen ++ tagTail, body,
          tagOpen.length + tagTail.length + body.length + tagClose.length)
      | none => none
    | none => none
  else none

/-- First block match of a string: its index, opening tag, body and full
length. -/
def findBlockScan (tagOpen tagClose : List Char) :
    List Char → Option (Nat × List Char × List Char × Nat)
  | [] => none
  | c :: rest =>
    match matchBlockAt tagOpen tagClose (c :: rest) with
    | some (tag, body, fl) => some (0, tag, body, fl)
    | none =>
      (findBlockScan tagOpen tagClose rest).map
        (fun r => (r.1 + 1, r.2.1, r.2.2.1, r.2.2.2))

/-- First block match at or after position `pos`. -/
def findBlock (tagOpen tagClose : List Char) (code : List Char) (pos : Nat) :
    Option (Nat × List Char × List Char × Nat) :=
  (findBlockScan tagOpen tagClose (code.drop pos)).map
    (fun r => (pos + r.1, r.2.1, r.2.2.1, r.2.2.2))

/-- One regex-exec loop of transformHtmlImports over the blocks delimited by
`tagOpen`/`tagClose`: a block with non-empty (trimmed) body has its body
transformed by `tr` and spliced back over the body span; the search resumes
at the old full-match end (the regex's `lastIndex`). Fuel-indexed like
`transformCssGo`. -/
def transformHtmlGo (tagOpen tagClose : List Char) (tr : List Char → List Char) :
    Nat → List Char → Nat → List Char
  | 0, code, _ => code
  | n + 1, code, pos =>
    match findBlock tagOpen tagClose code pos with
    | none => code
    | some (mi, tag, body, fl) =>
      if (trimWs body).isEmpty then
        transformHtmlGo tagOpen tagClose tr n code (mi + fl)
      else
        transformHtmlGo tagOpen tagClose tr n
          (spliceString code (tr body) (mi + tag.length) (mi + tag.length + body.length))
          (mi + fl)

/-- transformHtmlImports of rewrite-imports.ts: rewrite every inline script
block with the ESM rewriter, then every inline style block with the CSS
rewriter. The external es-module-lexer is passed in as `parseEsm`. -/
def transformHtmlImports (parseEsm : List Char → List EsmImport) (code : List Char)
    (replaceImport : List Char → List Char) : List Char :=
  let afterScripts :=
    transformHtmlGo "<script".toList "</script>".toList
      (fun body => transformEsmImports body replaceImport (parseEsm body))
      (code.length + 1) code 0
  transformHtmlGo "<style".toList "</style>".toList
    (fun body => transformCssImports body replaceImport)
    (afterScripts.length + 1) afterScripts 0

/-- SnowpackSourceFile, restricted to the fields used by
transformFileImports: the extension tag and the contents. -/
structure SnowpackSourceFile where
  baseExt : String
  contents : List Char
deriving DecidableEq

/-- transformFileImports of rewrite-imports.ts: dispatch on the extension,
throwing the `Incompatible filetype` error on any other extension. -/
def transformFileImports (parseEsm : List Char → List EsmImport)
    (file : SnowpackSourceFile) (replaceImport : List Char → List Char) :
    Except String (List Char) :=
  if file.baseExt = ".js" then
    .ok (transformEsmImports file.contents replaceImport (parseEsm file.contents))
  else if file.baseExt = ".html" then
    .ok (transformHtmlImports parseEsm file.contents replaceImport)
  else if file.baseExt = ".css" then
    .ok (transformCssImports file.contents replaceImport)
  else
    .error ("Incompatible filetype: cannot scan " ++ file.baseExt ++
      " files for ESM imports. This is most likely an error within Snowpack.")

/-- The import map produced by the package installer (`esinstall`,
external): a mapping from bare specifier to resolved URL. -/
structure ImportMap where
  imports : List (String × String)
deriving DecidableEq

/-- The LoadUrlOptions fields the build command passes to
`devServer.loadUrl`. -/
structure LoadOpts where
  isSSR : Bool
  isHMR : Bool
  isResolve : Bool
  importMap : Option ImportMap
deriving DecidableEq

/-- The mutable state threaded through the build command of part_000:
`allFileUrlsToProcess` (the work queue, top of the JS array stack at the
head here), `allFileUrlsUnique` (the discovered set, in insertion order),
`allBareModuleSpecifiers`, and the files written to the build directory.
`processed` is a specification-only history field recording every URL popped
by the flush loop (most recent first); it mirrors no source variable and is
never read by the model. -/
structure CrawlState where
  queue : List String
  unique : List String
  bare : List String
  written : List (String × String)
  processed : List String
deriving DecidableEq

/-- JS `string.startsWith(pre)`, computed over the character list (the
built-in `String.startsWith` goes through byte positions and does not
reduce in the kernel; on character lists it is the prefix test). -/
def jsStartsWith (s pre : String) : Bool := pre.data.isPrefixOf s.data

/-- Idempotent insert of a JS `Set` (insertion order preserved). -/
def insertSet (x : String) (l : List String) : List String :=
  if x ∈ l then l else l ++ [x]

/-- The body of the `for (const importedUrl of result.imports)` loop of
flushFileQueue: a bare specifier goes to the bare set; a local URL that is
not yet discovered is added to the discovered set and pushed onto the
queue. -/
def processImport (st : CrawlState) (importedUrl : String) : CrawlState :=
  if !jsStartsWith importedUrl "/" then
    { st with bare := insertSet importedUrl st.bare }
  else if importedUrl ∈ st.unique then st
  else { st with unique := st.unique ++ [importedUrl], queue := importedUrl :: st.queue }

/-- The external `devServer.loadUrl` operation: returns the transformed
contents and the list of import specifiers, or fails. -/
def LoadOp : Type := LoadOpts → String → Except String (String × List String)

/-- flushFileQueue of part_000 (fuel-indexed; `none` means the fuel ran
out, which never happens for the fuels used below): pop a URL; skip it when
`ignorePkg` is set and it falls under the package URL prefix; otherwise load
it, record the written file, and fold its imports through `processImport`. -/
def flushFileQueue (load : LoadOp) (pkgUrlPre : String) (ignorePkg : Bool)
    (opts : LoadOpts) : Nat → CrawlState → Option (Except String CrawlState)
  | 0, _ => none
  | n + 1, st =>
    match st.queue with
    | [] => some (.ok st)
    | fileUrl :: rest =>
      let st0 : CrawlState := { st with queue := rest, processed := fileUrl :: st.processed }
      if ignorePkg && jsStartsWith fileUrl pkgUrlPre then
        flushFileQueue load pkgUrlPre ignorePkg opts n st0
      else
        match load opts fileUrl with
        | .error err => some (.error err)
        | .ok (contents, imports) =>
          flushFileQueue load pkgUrlPre ignorePkg opts n
            (imports.foldl processImport
              { st0 with written := (fileUrl, contents) :: st0.written })

/-- The build configuration fields the model depends on: watch mode, the
SSR/HMR flags and the package URL prefix
(`path.posix.join(metaUrlPath, 'pkg/')`). -/
structure BuildConfig where
  watch : Bool
  isSSR : Bool
  isHMR : Bool
  pkgUrlPre : String
deriving DecidableEq

/-- JS `new Set(array)` spread back to an array: deduplicate keeping first
occurrences in order. -/
def dedupGo (seen : List String) : List String → List String
  | [] => []
  | x :: xs => if x ∈ seen then dedupGo seen xs else x :: dedupGo (x :: seen) xs

/-- Deduplicate a list keeping first occurrences. -/
def dedup (l : List String) : List String := dedupGo [] l

/-- A record of one `flushFileQueue` call site: its arguments and the queue
it started from. -/
structure FlushCall where
  ignorePkg : Bool
  opts : LoadOpts
  initialQueue : List String
deriving DecidableEq

/-- The outcome of a completed (non-watch part of a) build: the state after
pass 1, the install targets handed to the package installer (none in watch
mode), the resulting import map, the recorded pass-2 call, and the final
state. -/
structure BuildRun where
  pass1Final : CrawlState
  installedWith : Option (List String)
  optimizedImportMap : Option ImportMap
  pass2Call : FlushCall
  finalState : CrawlState
deriving DecidableEq

/-- The build command of part_000, from the mount scan's URL list onward:
seed the discovered set and the queue, run pass 1 unresolved, install the
collected bare specifiers unless in watch mode, reset the queue to the whole
discovered set, and run pass 2 resolved (ignoring package URLs exactly when
not in watch mode). The external package installer is the `install`
argument. -/
def build (cfg : BuildConfig) (install : List String → ImportMap) (load : LoadOp)
    (allFileUrls : List String) (fuel : Nat) : Option (Except String BuildRun) :=
  let allFileUrlsUnique := dedup allFileUrls
  let st0 : CrawlState :=
    ⟨allFileUrlsUnique.reverse, allFileUrlsUnique, [], [], []⟩
  match flushFileQueue load cfg.pkgUrlPre false
      ⟨cfg.isSSR, cfg.isHMR, false, none⟩ fuel st0 with
  | none => none
  | some (.error e) => some (.error e)
  | some (.ok st1) =>
    let installedWith := if cfg.watch then none else some st1.bare
    let optimizedImportMap := if cfg.watch then none else some (install st1.bare)
    let st2 : CrawlState := { st1 with queue := st1.unique.reverse }
    let opts2 : LoadOpts := ⟨cfg.isSSR, cfg.isHMR, true, optimizedImportMap⟩
    match flushFileQueue load cfg.pkgUrlPre (!cfg.watch) opts2 fuel st2 with
    | none => none
    | some (.error e) => some (.error e)
    | some (.ok st3) =>
      some (.ok ⟨st1, installedWith, optimizedImportMap,
        ⟨!cfg.watch, opts2, st2.queue⟩, st3⟩)

/-- The outcome of one watch-mode file-change notification: the state right
after the changed URLs were pushed (before the crawl), the recorded crawl
call, the state after the crawl, and how many times the registered
`onFileChange` callback was invoked (the source invokes it once, after the
crawl). -/
structure HandlerRun where
  preFlushState : CrawlState
  flushCall : FlushCall
  finalState : CrawlState
  callbackCount : Nat
deriving DecidableEq

/-- The `devServer.onFileChange` handler installed by the build command in
watch mode: push every URL of the changed path onto the queue, run one
crawl with `ignorePkg = true` and resolution enabled under the existing
map of imports, then invoke the user callback once. -/
def onFileChangeHandler (load : LoadOp) (cfg : BuildConfig)
    (optimizedImportMap : Option ImportMap) (getUrlsForFile : String → List String)
    (fuel : Nat) (st : CrawlState) (filePath : String) :
    Option (Except String HandlerRun) :=
  let st1 : CrawlState :=
    { st with queue := (getUrlsForFile filePath).foldl (fun q u => u :: q) st.queue }
  let opts : LoadOpts := ⟨cfg.isSSR, cfg.isHMR, true, optimizedImportMap⟩
  match flushFileQueue load cfg.pkgUrlPre true opts fuel st1 with
  | none => none
  | some (.error e) => some (.error e)
  | some (.ok st2) => some (.ok ⟨st1, ⟨true, opts, st1.queue⟩, st2, 1⟩)

/-- How the command function of part_000 ends: `process.exit(1)` on a build
error, a never-resolving promise in watch mode, a normal return otherwise. -/
inductive CommandOutcome where
  | exited : Nat → CommandOutcome
  | watching : CommandOutcome
  | completed : CommandOutcome
deriving DecidableEq

/-- The command function of part_000: run the build, exit with code 1 when
it throws. -/
def command (cfg : BuildConfig) (install : List String → ImportMap) (load : LoadOp)
    (allFileUrls : List String) (fuel : Nat) : Option CommandOutcome :=
  match build cfg install load allFileUrls fuel with
  | none => none
  | some (.error _) => some (.exited 1)
  | some (.ok _) => some (if cfg.watch then .watching else .completed)

/-- A file-system tree for the build output directory. -/
inductive FSEntry where
  | file : FSEntry
  | dir : List (String × FSEntry) → FSEntry

mutual

/-- removeEmptyFolders of part_000, on the tree model: a file is left
alone; a directory has each child cleaned recursively and is removed
(`none`) exactly when it then contains zero entries. -/
def removeEmptyFolders : FSEntry → Option FSEntry
  | .file => some .file
  | .dir entries =>
    match cleanEntries entries with
    | [] => none
    | es => some (.dir es)

/-- The `files.map(file => removeEmptyFolders(path.join(...)))` traversal of
part_000, keeping the children that survive. -/
def cleanEntries : List (String × FSEntry) → List (String × FSEntry)
  | [] => []
  | (n, c) :: rest =>
    match removeEmptyFolders c with
    | none => cleanEntries rest
    | some c' => (n, c') :: cleanEntries rest

end

mutual

/-- True when a tree contains no file anywhere beneath it. -/
def hasNoFile : FSEntry → Bool
  | .file => false
  | .dir entries => entriesNoFile entries

/-- True when every entry of a directory listing contains no file. -/
def entriesNoFile : List (String × FSEntry) → Bool
  | [] => true
  | (_, c) :: rest => hasNoFile c && entriesNoFile rest

end

/-- Decidable equality for `Except`, used to evaluate the crawler models on
concrete inputs. -/
instance {ε α : Type} [DecidableEq ε] [DecidableEq α] : DecidableEq (Except ε α) :=
  fun a b =>
    match a, b with
    | .error x, .error y =>
      if h : x = y then .isTrue (by rw [h]) else .isFalse (by simp [h])
    | .ok x, .ok y =>
      if h : x = y then .isTrue (by rw [h]) else .isFalse (by simp [h])
    | .error _, .ok _ => .isFalse (by simp)
    | .ok _, .error _ => .isFalse (by simp)

/-- Splicing a span's own content back over the span leaves the text
unchanged. -/
theorem spliceString_sublist (l : List Char) (s e : Nat) (hse : s ≤ e) :
    spliceString l (sublist l s e) s e = l := by
  unfold spliceString sublist
  have h1 : l.take s = (l.take e).take s := by
    rw [List.take_take, Nat.min_eq_left hse]
  rw [h1, List.take_append_drop, List.take_append_drop]

/-- Splicing a replacement equal to the middle segment of a decomposed text
leaves it unchanged. -/
theorem spliceString_middle (A B C : List Char) :
    spliceString (A ++ B ++ C) B A.length (A.length + B.length) = A ++ B ++ C := by
  unfold spliceString
  have h1 : (A ++ B ++ C).take A.length = A := by
    rw [List.append_assoc, List.take_left]
  have h2 : (A ++ B ++ C).drop (A.length + B.length) = C := by
    have : A.length + B.length = (A ++ B).length := (List.length_append A B).symm
    rw [this, List.drop_left]
  rw [h1, h2]

/-- The spliced-in replacement occurs as an infix of the splice result. -/
theorem infix_spliceString (l rw : List Char) (s e : Nat) :
    rw <:+: spliceString l rw s e :=
  ⟨l.take s, l.drop e, rfl⟩

/-- takeWhile over a concatenation whose first part satisfies the predicate
and whose continuation starts with a failing element. -/
theorem takeWhile_append_block {p : Char → Bool} (ws rest : List Char)
    (hws : ∀ c ∈ ws, p c = true)
    (hrest : rest = [] ∨ p (rest.headI) = false) :
    (ws ++ rest).takeWhile p = ws ∧ (ws ++ rest).dropWhile p = rest := by
  induction ws with
  | nil =>
    simp only [List.nil_append]
    rcases hrest with h | h
    · subst h; simp
    · cases rest with
      | nil => simp
      | cons c cs =>
        simp only [List.headI] at h
        constructor
        · rw [List.takeWhile_cons, h]; simp
        · rw [List.dropWhile_cons, h]; simp
  | cons c cs ih =>
    have hc : p c = true := hws c (by simp)
    have ihh := ih (fun x hx => hws x (by simp [hx]))
    constructor
    · rw [List.cons_append, List.takeWhile_cons, hc, ihh.1]; simp
    · rw [List.cons_append, List.dropWhile_cons, hc, ihh.2]; simp

/-- A quote character is not whitespace. -/
theorem isCssQuote_not_ws {c : Char} (h : isCssQuote c = true) : isWs c = false := by
  unfold isCssQuote at h
  rcases Bool.or_eq_true_iff.mp h with h | h
  · rw [of_decide_eq_true h]; decide
  · rw [of_decide_eq_true h]; decide

/-- findSpecEnd on a quote-free specifier followed by a closing quote and a
semicolon captures exactly the specifier. -/
theorem findSpecEnd_canonical (spec : List Char) (q : Char) (tail : List Char)
    (hspec : ∀ c ∈ spec, isCssQuote c = false) (hq : isCssQuote q = true) :
    findSpecEnd (spec ++ q :: ';' :: tail) = some spec := by
  induction spec with
  | nil => simp [findSpecEnd, hq]
  | cons c cs ih =>
    have hc : isCssQuote c = false := hspec c (by simp)
    have ihh := ih (fun x hx => hspec x (by simp [hx]))
    cases cs with
    | nil =>
      simp only [List.nil_append] at ihh ⊢
      simp [findSpecEnd, hc, ihh, hq]
    | cons c2 cs2 =>
      simp only [List.cons_append] at ihh ⊢
      rw [findSpecEnd, if_neg (by simp [hc])]
      simp [ihh]

/-- The rule matcher at the head of a decomposed rule: literal `@import`,
whitespace, a quoted quote-free specifier, a semicolon. -/
theorem matchCssAt_canonical (ws : List Char) (q : Char) (spec : List Char)
    (q2 : Char) (tail : List Char)
    (hws : ∀ c ∈ ws, isWs c = true) (hq : isCssQuote q = true)
    (hspec : ∀ c ∈ spec, isCssQuote c = false) (hq2 : isCssQuote q2 = true) :
    matchCssAt ("@import".toList ++ (ws ++ q :: (spec ++ q2 :: ';' :: tail))) =
      some (7 + ws.length + 1 + spec.length + 2, spec) := by
  have h7 : ("@import".toList).length = 7 := rfl
  have hdrop : ("@import".toList ++ (ws ++ q :: (spec ++ q2 :: ';' :: tail))).drop 7 =
      ws ++ q :: (spec ++ q2 :: ';' :: tail) := by
    rw [← h7, List.drop_left]
  have hpre : ("@import".toList).isPrefixOf
      ("@import".toList ++ (ws ++ q :: (spec ++ q2 :: ';' :: tail))) = true := by
    rw [List.isPrefixOf_iff_prefix]
    exact List.prefix_append _ _
  have hblock := takeWhile_append_block (p := isWs) ws (q :: (spec ++ q2 :: ';' :: tail))
    hws (Or.inr (by simpa using isCssQuote_not_ws hq))
  have hfse : findSpecEnd (spec ++ q2 :: ';' :: tail) = some spec :=
    findSpecEnd_canonical spec q2 tail hspec hq2
  unfold matchCssAt
  rw [if_pos hpre, hdrop, hblock.1, hblock.2]
  simp [hq, hfse]

/-- No rule matches at a position whose character is not `@`. -/
theorem matchCssAt_none {c : Char} (rest : List Char) (hc : c ≠ '@') :
    matchCssAt (c :: rest) = none := by
  unfold matchCssAt
  rw [if_neg]
  intro h
  rw [List.isPrefixOf_iff_prefix] at h
  rcases h with ⟨t, ht⟩
  have h0 : "@import".toList = '@' :: "import".toList := rfl
  rw [h0, List.cons_append] at ht
  injection ht with h1 _
  exact hc h1.symm

/-- A string without `@` contains no rule match. -/
theorem findCssScan_none (s : List Char) (hs : ∀ c ∈ s, c ≠ '@') :
    findCssScan s = none := by
  induction s with
  | nil => rfl
  | cons c rest ih =>
    unfold findCssScan
    rw [matchCssAt_none rest (hs c (by simp))]
    rw [ih (fun x hx => hs x (by simp [hx]))]
    rfl

/-- The first rule match of `gap ++ rest` when `gap` is `@`-free and a rule
matches at the head of `rest`. -/
theorem findCssScan_append (gap rest : List Char) (fl : Nat) (spec : List Char)
    (hgap : ∀ c ∈ gap, c ≠ '@') (hm : matchCssAt rest = some (fl, spec)) :
    findCssScan (gap ++ rest) = some (gap.length, fl, spec) := by
  induction gap with
  | nil =>
    cases rest with
    | nil => simp [matchCssAt] at hm
    | cons c cs =>
      simp only [List.nil_append]
      unfold findCssScan
      rw [hm]
      rfl
  | cons c cs ih =>
    have hc : c ≠ '@' := hgap c (by simp)
    rw [List.cons_append]
    unfold findCssScan
    rw [matchCssAt_none _ hc, ih (fun x hx => hgap x (by simp [hx]))]
    simp [List.length_cons]

/-- A stylesheet consisting of one `@import` rule (arbitrary quote style and
spacing) is rewritten to exactly the canonical emitted rule. -/
theorem transformCss_single_rule (ws : List Char) (q : Char) (spec : List Char)
    (q2 : Char) (replaceImport : List Char → List Char)
    (hws : ∀ c ∈ ws, isWs c = true) (hq : isCssQuote q = true)
    (hspec : ∀ c ∈ spec, isCssQuote c = false) (hq2 : isCssQuote q2 = true)
    (hrepl : ∀ c ∈ removeFirst ".proxy.js".toList (replaceImport spec), c ≠ '@') :
    transformCssImports ("@import".toList ++ (ws ++ q :: (spec ++ q2 :: ';' :: [])))
      replaceImport = cssEmit (replaceImport spec) := by
  set code := "@import".toList ++ (ws ++ q :: (spec ++ q2 :: ';' :: [])) with hcode
  set fl := 7 + ws.length + 1 + spec.length + 2 with hfl
  have hm : matchCssAt code = some (fl, spec) :=
    matchCssAt_canonical ws q spec q2 [] hws hq hspec hq2
  have hscan : findCssScan code = some (0, fl, spec) := by
    have := findCssScan_append [] code fl spec (by intro c hc; simp at hc) hm
    simpa using this
  have hfind : findCssImport code 0 = some (0, fl, spec) := by
    unfold findCssImport
    rw [List.drop_zero, hscan]
    rfl
  have hlen : code.length = fl := by
    rw [hcode, hfl]
    simp [List.length_append]
    omega
  have hdropfl : code.drop fl = [] := by rw [← hlen, List.drop_length]
  set E := cssEmit (replaceImport spec) with hE
  have hsplice : spliceString code E 0 (0 + fl) = E := by
    unfold spliceString
    rw [Nat.zero_add, hdropfl, List.take_zero, List.nil_append, List.append_nil]
  have hEdecomp : E = "@import \"".toList ++
      (removeFirst ".proxy.js".toList (replaceImport spec) ++ "\";".toList) := by
    rw [hE]; unfold cssEmit; rw [List.append_assoc]
  have hnoat : ∀ c ∈ E.drop fl, c ≠ '@' := by
    intro c hc
    have h9 : ("@import \"".toList).length = 9 := rfl
    have hfl9 : fl = 9 + (fl - 9) := by omega
    rw [hEdecomp, hfl9, ← h9, List.drop_append] at hc
    have hc2 := List.drop_subset _ _ hc
    rcases List.mem_append.mp hc2 with h | h
    · exact hrepl c h
    · have : c = quoteChar ∨ c = ';' := by
        rcases h with _ | ⟨_, _ | ⟨_, h⟩⟩
        · exact Or.inl rfl
        · exact Or.inr rfl
        · cases h
      rcases this with rfl | rfl <;> decide
  have hfind2 : findCssImport E fl = none := by
    unfold findCssImport
    rw [findCssScan_none _ hnoat]
    rfl
  have hfl10 : 10 ≤ fl := by rw [hfl]; omega
  obtain ⟨m, hm'⟩ : ∃ m, code.length = m + 1 := ⟨code.length - 1, by omega⟩
  have hm2' : ∃ k, m = k + 1 := ⟨m - 1, by omega⟩
  obtain ⟨k, hk⟩ := hm2'
  unfold transformCssImports
  rw [hm']
  simp only [transformCssGo, hfind]
  rw [hsplice, Nat.zero_add, hk]
  simp only [transformCssGo, hfind2]

/-- The text of one canonical emitted rule: `@import "spec";`. -/
def cssCanonicalRule (spec : List Char) : List Char :=
  "@import \"".toList ++ spec ++ "\";".toList

/-- A stylesheet built of gap/rule segments followed by a tail. -/
def cssConcat : List (List Char × List Char) → List Char → List Char
  | [], tail => tail
  | (gap, spec) :: parts, tail => gap ++ (cssCanonicalRule spec ++ cssConcat parts tail)

/-- Side conditions under which every `@import` rule of a `cssConcat`
stylesheet is matched exactly as written: gaps and tail contain no `@`, the
specifiers contain no quote character and no `@`, and no specifier contains
the `.proxy.js` pattern. -/
def CssPartsOk (parts : List (List Char × List Char)) (tail : List Char) : Prop :=
  (∀ p ∈ parts, (∀ c ∈ p.1, c ≠ '@') ∧ (∀ c ∈ p.2, isCssQuote c = false ∧ c ≠ '@') ∧
    removeFirst ".proxy.js".toList p.2 = p.2) ∧ (∀ c ∈ tail, c ≠ '@')

instance (parts : List (List Char × List Char)) (tail : List Char) :
    Decidable (CssPartsOk parts tail) := by
  unfold CssPartsOk
  infer_instance

/-- A canonical rule followed by anything decomposes into the matcher's
canonical shape. -/
theorem cssCanonicalRule_decomp (spec rest : List Char) :
    cssCanonicalRule spec ++ rest =
      "@import".toList ++ ([' '] ++ quoteChar :: (spec ++ quoteChar :: ';' :: rest)) := by
  have h1 : "@import \"".toList = "@import".toList ++ ([' '] ++ [quoteChar]) := by decide
  have h2 : "\";".toList = quoteChar :: [';'] := by decide
  unfold cssCanonicalRule
  rw [h1, h2]
  simp [List.append_assoc]

/-- The matcher on a canonical rule followed by anything. -/
theorem matchCssAt_canonicalRule (spec rest : List Char)
    (hspec : ∀ c ∈ spec, isCssQuote c = false) :
    matchCssAt (cssCanonicalRule spec ++ rest) = some (11 + spec.length, spec) := by
  rw [cssCanonicalRule_decomp]
  have := matchCssAt_canonical [' '] quoteChar spec quoteChar rest
    (by intro c hc; simp at hc; rw [hc]; rfl) (by decide) hspec (by decide)
  rw [this]
  simp only [Option.some.injEq, Prod.mk.injEq, List.length_cons, List.length_nil]
  constructor
  · omega
  · trivial

/-- Length of a canonical rule. -/
theorem cssCanonicalRule_length (spec : List Char) :
    (cssCanonicalRule spec).length = 11 + spec.length := by
  unfold cssCanonicalRule
  simp [List.length_append]
  omega

/-- The crawl loop of transformCssImports leaves a stylesheet unchanged under
the identity replacement when every rule is already canonical, by induction
over the rule segments. -/
theorem transformCssGo_id (parts : List (List Char × List Char)) (tail : List Char) :
    ∀ (fuel : Nat) (code : List Char) (pos : Nat),
    CssPartsOk parts tail →
    code.drop pos = cssConcat parts tail →
    pos ≤ code.length →
    parts.length < fuel →
    transformCssGo (fun s => s) fuel code pos = code := by
  induction parts with
  | nil =>
    intro fuel code pos hok hdrop hpos hfuel
    obtain ⟨m, rfl⟩ : ∃ m, fuel = m + 1 := ⟨fuel - 1, by omega⟩
    have hdrop' : code.drop pos = tail := by simpa [cssConcat] using hdrop
    have hnone : findCssImport code pos = none := by
      unfold findCssImport
      rw [hdrop', findCssScan_none _ hok.2]
      rfl
    simp only [transformCssGo, hnone]
  | cons part parts' ih =>
    intro fuel code pos hok hdrop hpos hfuel
    obtain ⟨gap, spec⟩ := part
    obtain ⟨m, rfl⟩ : ∃ m, fuel = m + 1 := ⟨fuel - 1, by omega⟩
    have hcond := hok.1 (gap, spec) (by simp)
    have hgap : ∀ c ∈ gap, c ≠ '@' := hcond.1
    have hspec : ∀ c ∈ spec, isCssQuote c = false := fun c hc => (hcond.2.1 c hc).1
    have hrf : removeFirst ".proxy.js".toList spec = spec := hcond.2.2
    set rest := cssConcat parts' tail with hrest
    have hdrop2 : code.drop pos = gap ++ (cssCanonicalRule spec ++ rest) := hdrop
    have hm2 : matchCssAt (cssCanonicalRule spec ++ rest) = some (11 + spec.length, spec) :=
      matchCssAt_canonicalRule spec rest hspec
    have hscan : findCssScan (code.drop pos) = some (gap.length, 11 + spec.length, spec) := by
      rw [hdrop2]
      exact findCssScan_append gap _ _ _ hgap hm2
    have hfind : findCssImport code pos =
        some (pos + gap.length, 11 + spec.length, spec) := by
      unfold findCssImport
      rw [hscan]
      rfl
    obtain ⟨pre, hpre⟩ : ∃ pre, code.take pos = pre := ⟨_, rfl⟩
    have htakelen : pre.length = pos := by
      rw [← hpre, List.length_take]
      omega
    have hcodeeq : code = (pre ++ gap ++ cssCanonicalRule spec) ++ rest := by
      conv_lhs => rw [← List.take_append_drop pos code]
      rw [hdrop2, hpre]
      simp [List.append_assoc]
    have hmi : (pre ++ gap).length = pos + gap.length := by
      rw [List.length_append, htakelen]
    have hemit : cssEmit spec = cssCanonicalRule spec := by
      unfold cssEmit cssCanonicalRule
      rw [hrf]
    have hsplice : spliceString code (cssEmit spec) (pos + gap.length)
        (pos + gap.length + (11 + spec.length)) = code := by
      rw [hemit]
      have hfl : pos + gap.length + (11 + spec.length) =
          (pre ++ gap).length + (cssCanonicalRule spec).length := by
        rw [hmi, cssCanonicalRule_length]
      rw [hcodeeq, hfl, ← hmi]
      exact spliceString_middle (pre ++ gap) (cssCanonicalRule spec) rest
    have hposlen : pos + gap.length + (11 + spec.length) ≤ code.length := by
      conv_rhs => rw [hcodeeq]
      rw [List.length_append, List.length_append, List.length_append, htakelen,
        cssCanonicalRule_length]
      omega
    have hdropnext : code.drop (pos + gap.length + (11 + spec.length)) = rest := by
      conv_lhs => rw [hcodeeq]
      have : pos + gap.length + (11 + spec.length) =
          (pre ++ gap ++ cssCanonicalRule spec).length := by
        rw [List.length_append, hmi, cssCanonicalRule_length]
      rw [this, List.drop_left]
    have hok' : CssPartsOk parts' tail :=
      ⟨fun p hp => hok.1 p (by simp [hp]), hok.2⟩
    have ihh := ih m code (pos + gap.length + (11 + spec.length)) hok' hdropnext
      hposlen (by simp at hfuel ⊢; omega)
    simp only [transformCssGo, hfind, hsplice]
    exact ihh

/-- Each gap/rule segment contributes at least one character. -/
theorem cssConcat_length_ge (parts : List (List Char × List Char)) (tail : List Char) :
    parts.length ≤ (cssConcat parts tail).length := by
  induction parts with
  | nil => simp [cssConcat]
  | cons part parts' ih =>
    obtain ⟨gap, spec⟩ := part
    simp only [cssConcat, List.length_append, List.length_cons]
    have : 1 ≤ (cssCanonicalRule spec).length := by
      rw [cssCanonicalRule_length]; omega
    omega

/-- transformCssImports is the identity on a stylesheet whose rules are all
canonical (with `.proxy.js`-free specifiers), under the identity
replacement. -/
theorem transformCssImports_canonical_id (parts : List (List Char × List Char))
    (tail : List Char) (hok : CssPartsOk parts tail) :
    transformCssImports (cssConcat parts tail) (fun s => s) = cssConcat parts tail := by
  unfold transformCssImports
  exact transformCssGo_id parts tail _ _ 0 hok (by rw [List.drop_zero]) (by omega)
    (by have := cssConcat_length_ge parts tail; omega)

/-- When the pattern occurs only as the final suffix, removing its first
occurrence removes exactly that suffix. -/
theorem removeFirst_append_of_no_early (pat y : List Char) (hpat : pat ≠ [])
    (hno : ∀ i < y.length, pat.isPrefixOf ((y ++ pat).drop i) = false) :
    removeFirst pat (y ++ pat) = y := by
  induction y with
  | nil =>
    cases pat with
    | nil => exact absurd rfl hpat
    | cons p ps =>
      simp only [List.nil_append]
      unfold removeFirst
      rw [if_pos (List.isPrefixOf_iff_prefix.mpr (List.prefix_refl _))]
      exact List.drop_length _
  | cons a y' ih =>
    have h0 : pat.isPrefixOf ((a :: y' ++ pat)) = false := by
      have := hno 0 (by simp)
      simpa using this
    rw [List.cons_append]
    unfold removeFirst
    rw [if_neg (by
      intro hp
      rw [List.cons_append] at h0
      rw [h0] at hp
      cases hp)]
    have ihh := ih (fun i hi => by
      have := hno (i + 1) (by simp; omega)
      simpa using this)
    rw [ihh]

/-- Every element of a list is an infix of its space-join. -/
theorem infix_joinSpace {x : List Char} {L : List (List Char)} (hx : x ∈ L) :
    x <:+: joinSpace L := by
  induction L with
  | nil => cases hx
  | cons y ys ih =>
    cases ys with
    | nil =>
      simp at hx
      rw [hx]
      exact List.infix_refl _
    | cons z zs =>
      rcases List.mem_cons.mp hx with rfl | hx'
      · exact ⟨[], ' ' :: joinSpace (z :: zs), by simp [joinSpace]⟩
      · have h1 : x <:+: joinSpace (z :: zs) := ih hx'
        have h2 : joinSpace (z :: zs) <:+: joinSpace (y :: z :: zs) :=
          ⟨y ++ [' '], [], by simp [joinSpace]⟩
        exact h1.trans h2

/-- Folding the rewriter over static well-formed records with the identity
replacement leaves the text unchanged. -/
theorem foldl_rewriteImport_static (L : List EsmImport) :
    ∀ code : List Char, (∀ imp ∈ L, imp.d ≤ -1 ∧ imp.s ≤ imp.e) →
    L.foldl (rewriteImport (fun s => s)) code = code := by
  induction L with
  | nil => intro code _; rfl
  | cons imp L' ih =>
    intro code h
    have himp := h imp (by simp)
    have hnotdyn : ¬ imp.d > -1 := by omega
    have hstep : rewriteImport (fun s => s) code imp = code := by
      unfold rewriteImport
      rw [if_neg hnotdyn]
      exact spliceString_sublist code imp.s imp.e himp.2
    rw [List.foldl_cons, hstep]
    exact ih code (fun i hi => h i (by simp [hi]))

/-- transformEsmImports with the identity replacement is the identity on any
source whose lexer records are all static with ordered spans. -/
theorem transformEsmImports_static_id (code : List Char) (parsed : List EsmImport)
    (h : ∀ imp ∈ parsed, imp.d ≤ -1 ∧ imp.s ≤ imp.e) :
    transformEsmImports code (fun s => s) parsed = code := by
  unfold transformEsmImports
  apply foldl_rewriteImport_static
  intro imp hi
  apply h
  have := List.mem_reverse.mp hi
  exact List.mem_of_mem_filter this

/-- The scan keeps a single dynamic record whose argument reduces to a
non-empty literal. -/
theorem scan_single_dynamic (code : List Char) (imp : EsmImport) (v : List Char)
    (hd : imp.d > -1) (hm : matchDynamicImportValue (sublist code imp.s imp.e) = some v)
    (hv : v ≠ []) : scanCodeImportsExports code [imp] = [imp] := by
  have hne2 : ¬ imp.d = -2 := by omega
  rcases v with _ | ⟨vh, vt⟩
  · exact absurd rfl hv
  · unfold scanCodeImportsExports
    simp [hne2, hd, hm]

/-- The rewrite of one dynamic record: magic comments joined, replacement
re-quoted. -/
theorem rewriteImport_dynamic (code : List Char) (replaceImport : List Char → List Char)
    (imp : EsmImport) (hd : imp.d > -1) :
    rewriteImport replaceImport code imp =
      spliceString code
        (if (findBlockComments (sublist code imp.s imp.e)).isEmpty then
          jsonQuote (replaceImport
            ((matchDynamicImportValue (sublist code imp.s imp.e)).getD []))
        else
          joinSpace (findBlockComments (sublist code imp.s imp.e)) ++ ' ' ::
            jsonQuote (replaceImport
              ((matchDynamicImportValue (sublist code imp.s imp.e)).getD [])))
        imp.s imp.e := by
  unfold rewriteImport
  rw [if_pos hd]

/-- C1, counterexample: rewriting a stylesheet with the identity replacement
is not byte-identical to the input. The single-quoted rule
`@import 'x.css';` is normalised to `@import "x.css";`, so
`rewrite(src, identity) == src` fails on this `.css` source file. -/
theorem c1_identity_rewrite_counterexample :
    transformFileImports (fun _ => []) ⟨".css", "@import 'x.css';".toList⟩ (fun s => s) =
      Except.ok ("@import \"x.css\";".toList) ∧
    "@import \"x.css\";".toList ≠ "@import 'x.css';".toList := by
  constructor
  · decide
  · decide

/-- C1 (amended): rewriting with the identity replacement is byte-identical
for a `.js` file all of whose lexer records are static (with ordered spans),
and for a `.css` file whose `@import` rules are all already in the canonical
double-quoted form with specifiers free of `.proxy.js`; it is not the
identity in general, because dynamic-import specifiers are re-quoted and
non-canonical `@import` rules are normalised (see the counterexample). -/
theorem c1_identity_rewrite_amended :
    (∀ (parseEsm : List Char → List EsmImport) (code : List Char),
      (∀ imp ∈ parseEsm code, imp.d ≤ -1 ∧ imp.s ≤ imp.e) →
      transformFileImports parseEsm ⟨".js", code⟩ (fun s => s) = Except.ok code) ∧
    (∀ (parseEsm : List Char → List EsmImport) (parts : List (List Char × List Char))
      (tail : List Char), CssPartsOk parts tail →
      transformFileImports parseEsm ⟨".css", cssConcat parts tail⟩ (fun s => s) =
        Except.ok (cssConcat parts tail)) := by
  constructor
  · intro parseEsm code h
    have hid := transformEsmImports_static_id code (parseEsm code) h
    simp [transformFileImports, hid]
  · intro parseEsm parts tail hok
    have hid := transformCssImports_canonical_id parts tail hok
    simp [transformFileImports, hid]

/-- C1 witness: the amended identity property evaluated at a one-import
static script and at a one-rule canonical stylesheet with a gap. -/
theorem c1_identity_rewrite_witness :
    transformFileImports (fun _ => [⟨8, 14, -1⟩]) ⟨".js", "import \"./a.js\";".toList⟩
      (fun s => s) = Except.ok ("import \"./a.js\";".toList) ∧
    transformFileImports (fun _ => []) ⟨".css",
        cssConcat [("p: red; ".toList, "x.css".toList)] " body;".toList⟩ (fun s => s) =
      Except.ok (cssConcat [("p: red; ".toList, "x.css".toList)] " body;".toList) :=
  ⟨c1_identity_rewrite_amended.1 _ _ (by decide),
   c1_identity_rewrite_amended.2 _ _ _ (by decide)⟩

/-- C10: the stylesheet rewriter emits every matched rule in the canonical
form `@import "<replacement with first .proxy.js removed>";` — whatever the
original quote style and the spacing after `@import` were — and consequently
the identity replacement still changes the bytes of a single-quoted rule. -/
theorem c10_css_rule_normalization :
    (∀ (ws : List Char) (q : Char) (spec : List Char) (q2 : Char)
      (replaceImport : List Char → List Char),
      (∀ c ∈ ws, isWs c = true) → isCssQuote q = true →
      (∀ c ∈ spec, isCssQuote c = false) → isCssQuote q2 = true →
      (∀ c ∈ removeFirst ".proxy.js".toList (replaceImport spec), c ≠ '@') →
      transformCssImports ("@import".toList ++ (ws ++ q :: (spec ++ q2 :: ';' :: [])))
        replaceImport =
        "@import \"".toList ++ removeFirst ".proxy.js".toList (replaceImport spec) ++
          "\";".toList) ∧
    transformCssImports "@import 'x.css';".toList (fun s => s) ≠
      "@import 'x.css';".toList := by
  constructor
  · intro ws q spec q2 replaceImport hws hq hspec hq2 hrepl
    exact transformCss_single_rule ws q spec q2 replaceImport hws hq hspec hq2 hrepl
  · decide

/-- C10 witness: the normal form evaluated on the single-quoted rule
`@import 'x.css';` under the identity replacement. -/
theorem c10_css_rule_normalization_witness :
    transformCssImports ("@import".toList ++
        ([' '] ++ apostChar :: ("x.css".toList ++ apostChar :: ';' :: [])))
      (fun s => s) =
      "@import \"".toList ++ removeFirst ".proxy.js".toList "x.css".toList ++
        "\";".toList :=
  c10_css_rule_normalization.1 [' '] apostChar "x.css".toList apostChar (fun s => s)
    (by decide) (by decide) (by decide) (by decide) (by decide)

/-- C5, counterexample: the code removes the FIRST occurrence of
`.proxy.js`, not the suffix. For the replacement `a.proxy.jsb.proxy.js`
(which ends in the proxy suffix) the emitted rule is
`@import "ab.proxy.js";`, which does not contain the suffix-stripped
replacement `a.proxy.jsb` at all. -/
theorem c5_proxy_strip_counterexample :
    transformCssImports "@import \"x.css\";".toList
      (fun _ => "a.proxy.jsb.proxy.js".toList) = "@import \"ab.proxy.js\";".toList ∧
    ¬ ("a.proxy.jsb".toList <:+: "@import \"ab.proxy.js\";".toList) := by
  constructor
  · decide
  · decide

/-- C5 (amended): the emitted rule contains the replacement with the first
occurrence of `.proxy.js` removed; when the suffix is the only occurrence
this coincides with stripping the suffix, and in particular rewriting
`@import "x.css";` with `replace = _ => '/pkg/x.proxy.js'` emits
`@import "/pkg/x";`. -/
theorem c5_proxy_strip_amended :
    (∀ (spec : List Char) (replaceImport : List Char → List Char),
      (∀ c ∈ spec, isCssQuote c = false) →
      (∀ c ∈ removeFirst ".proxy.js".toList (replaceImport spec), c ≠ '@') →
      transformCssImports (cssCanonicalRule spec) replaceImport =
        "@import \"".toList ++ removeFirst ".proxy.js".toList (replaceImport spec) ++
          "\";".toList) ∧
    (∀ y : List Char,
      (∀ i < y.length,
        (".proxy.js".toList).isPrefixOf ((y ++ ".proxy.js".toList).drop i) = false) →
      removeFirst ".proxy.js".toList (y ++ ".proxy.js".toList) = y) ∧
    transformCssImports "@import \"x.css\";".toList
      (fun _ => "/pkg/x.proxy.js".toList) = "@import \"/pkg/x\";".toList := by
  refine ⟨?_, ?_, by decide⟩
  · intro spec replaceImport hspec hrepl
    have hdecomp : cssCanonicalRule spec =
        "@import".toList ++ ([' '] ++ quoteChar :: (spec ++ quoteChar :: ';' :: [])) := by
      have := cssCanonicalRule_decomp spec []
      simpa using this
    rw [hdecomp]
    exact transformCss_single_rule [' '] quoteChar spec quoteChar replaceImport
      (by intro c hc; simp at hc; rw [hc]; rfl) (by decide) hspec (by decide) hrepl
  · intro y hno
    exact removeFirst_append_of_no_early ".proxy.js".toList y (by decide) hno

/-- C5 witness: the amended property evaluated at the `x.css` rule with the
`/pkg/x.proxy.js` replacement, and the first-occurrence removal evaluated
where the suffix is the only occurrence. -/
theorem c5_proxy_strip_witness :
    transformCssImports (cssCanonicalRule "x.css".toList)
      (fun _ => "/pkg/x.proxy.js".toList) =
      "@import \"".toList ++ removeFirst ".proxy.js".toList "/pkg/x.proxy.js".toList ++
        "\";".toList ∧
    removeFirst ".proxy.js".toList ("/pkg/x".toList ++ ".proxy.js".toList) =
      "/pkg/x".toList :=
  ⟨c5_proxy_strip_amended.1 "x.css".toList _ (by decide) (by decide),
   c5_proxy_strip_amended.2.1 "/pkg/x".toList (by decide)⟩

/-- C6: when rewriting a dynamic import whose argument reduces to a
non-empty literal `v`, the rewritten text is the splice of (all magic
comments of the span, joined by spaces, followed by) the replacement
re-quoted with `JSON.stringify`; every magic-comment block of the span is
preserved verbatim (it occurs as an infix of the result), and the re-quoted
replacement specifier occurs in the result, for every replacement function
and record. -/
theorem c6_dynamic_magic_comments (code : List Char)
    (replaceImport : List Char → List Char) (imp : EsmImport) (v : List Char)
    (hd : imp.d > -1)
    (hm : matchDynamicImportValue (sublist code imp.s imp.e) = some v)
    (hv : v ≠ []) :
    transformEsmImports code replaceImport [imp] =
      spliceString code
        (if (findBlockComments (sublist code imp.s imp.e)).isEmpty then
          jsonQuote (replaceImport v)
        else
          joinSpace (findBlockComments (sublist code imp.s imp.e)) ++ ' ' ::
            jsonQuote (replaceImport v)) imp.s imp.e ∧
    (∀ c ∈ findBlockComments (sublist code imp.s imp.e),
      c <:+: transformEsmImports code replaceImport [imp]) ∧
    jsonQuote (replaceImport v) <:+: transformEsmImports code replaceImport [imp] := by
  have hscan := scan_single_dynamic code imp v hd hm hv
  have heq : transformEsmImports code replaceImport [imp] =
      rewriteImport replaceImport code imp := by
    unfold transformEsmImports
    rw [hscan]
    rfl
  have hrw := rewriteImport_dynamic code replaceImport imp hd
  rw [hm] at hrw
  simp only [Option.getD_some] at hrw
  have hres : transformEsmImports code replaceImport [imp] =
      spliceString code
        (if (findBlockComments (sublist code imp.s imp.e)).isEmpty then
          jsonQuote (replaceImport v)
        else
          joinSpace (findBlockComments (sublist code imp.s imp.e)) ++ ' ' ::
            jsonQuote (replaceImport v)) imp.s imp.e := heq.trans hrw
  refine ⟨hres, ?_, ?_⟩
  · intro c hc
    rw [hres]
    have hne : (findBlockComments (sublist code imp.s imp.e)).isEmpty = false := by
      cases hfc : findBlockComments (sublist code imp.s imp.e) with
      | nil => rw [hfc] at hc; cases hc
      | cons a as => rfl
    rw [if_neg (by simp [hne])]
    have h1 : c <:+: joinSpace (findBlockComments (sublist code imp.s imp.e)) :=
      infix_joinSpace hc
    have h2 : joinSpace (findBlockComments (sublist code imp.s imp.e)) <:+:
        joinSpace (findBlockComments (sublist code imp.s imp.e)) ++ ' ' ::
          jsonQuote (replaceImport v) :=
      ⟨[], ' ' :: jsonQuote (replaceImport v), by simp⟩
    exact (h1.trans h2).trans (infix_spliceString _ _ imp.s imp.e)
  · rw [hres]
    by_cases hc : (findBlockComments (sublist code imp.s imp.e)).isEmpty
    · rw [if_pos hc]
      exact infix_spliceString _ _ imp.s imp.e
    · rw [if_neg hc]
      have h2 : jsonQuote (replaceImport v) <:+:
          joinSpace (findBlockComments (sublist code imp.s imp.e)) ++ ' ' ::
            jsonQuote (replaceImport v) :=
        ⟨joinSpace (findBlockComments (sublist code imp.s imp.e)) ++ [' '], [], by simp⟩
      exact h2.trans (infix_spliceString _ _ imp.s imp.e)

/-- C6 witness: the dynamic rewrite evaluated on the span
`/* a */ "./m"` with the identity replacement. -/
theorem c6_dynamic_magic_comments_witness :
    transformEsmImports "/* a */ \"./m\"".toList (fun s => s) [⟨0, 13, 0⟩] =
      spliceString "/* a */ \"./m\"".toList
        (if (findBlockComments (sublist "/* a */ \"./m\"".toList 0 13)).isEmpty then
          jsonQuote "./m".toList
        else
          joinSpace (findBlockComments (sublist "/* a */ \"./m\"".toList 0 13)) ++ ' ' ::
            jsonQuote "./m".toList) 0 13 ∧
    (∀ c ∈ findBlockComments (sublist "/* a */ \"./m\"".toList 0 13),
      c <:+: transformEsmImports "/* a */ \"./m\"".toList (fun s => s) [⟨0, 13, 0⟩]) ∧
    jsonQuote "./m".toList <:+:
      transformEsmImports "/* a */ \"./m\"".toList (fun s => s) [⟨0, 13, 0⟩] :=
  c6_dynamic_magic_comments "/* a */ \"./m\"".toList (fun s => s) ⟨0, 13, 0⟩
    "./m".toList (by decide) (by decide) (by decide)

/-- Folding the import loop over a list of specifiers: the discovered set is
extended (at the end, in order) by exactly the fresh local URLs, which are
also pushed onto the queue; written files and the processed history are
untouched; every fresh URL is a `/`-prefixed member of the import list that
was not yet discovered. -/
theorem foldl_processImport_spec (imports : List String) :
    ∀ st : CrawlState, ∃ fresh : List String,
    (imports.foldl processImport st).unique = st.unique ++ fresh ∧
    (imports.foldl processImport st).queue = fresh.reverse ++ st.queue ∧
    (imports.foldl processImport st).written = st.written ∧
    (imports.foldl processImport st).processed = st.processed ∧
    (imports.foldl processImport st).bare.length ≥ st.bare.length ∧
    fresh.Nodup ∧
    (∀ x ∈ fresh, x ∉ st.unique) ∧
    (∀ x ∈ fresh, x ∈ imports ∧ jsStartsWith x "/" = true) := by
  induction imports with
  | nil =>
    intro st
    exact ⟨[], by simp, by simp, rfl, rfl, le_refl _, List.nodup_nil, by simp, by simp⟩
  | cons i is ih =>
    intro st
    by_cases h1 : jsStartsWith i "/" = true
    · by_cases h2 : i ∈ st.unique
      · have hstep : processImport st i = st := by
          unfold processImport
          rw [if_neg (by simp [h1]), if_pos h2]
        rw [List.foldl_cons, hstep]
        obtain ⟨fresh, ha, hb, hc, hd, he, hf, hg, hh⟩ := ih st
        exact ⟨fresh, ha, hb, hc, hd, he, hf, hg,
          fun x hx => ⟨List.mem_cons_of_mem i (hh x hx).1, (hh x hx).2⟩⟩
      · have hstep : processImport st i =
            { st with unique := st.unique ++ [i], queue := i :: st.queue } := by
          unfold processImport
          rw [if_neg (by simp [h1]), if_neg h2]
        rw [List.foldl_cons, hstep]
        obtain ⟨fresh, ha, hb, hc, hd, he, hf, hg, hh⟩ :=
          ih { st with unique := st.unique ++ [i], queue := i :: st.queue }
        refine ⟨i :: fresh, ?_, ?_, hc, hd, he, ?_, ?_, ?_⟩
        · rw [ha]; simp
        · rw [hb]; simp
        · refine List.nodup_cons.mpr ⟨?_, hf⟩
          intro hin
          exact hg i hin (by simp)
        · intro x hx
          rcases List.mem_cons.mp hx with rfl | hx'
          · exact h2
          · intro hxin
            exact hg x hx' (by simp [hxin])
        · intro x hx
          rcases List.mem_cons.mp hx with rfl | hx'
          · exact ⟨List.mem_cons_self _ _, h1⟩
          · exact ⟨List.mem_cons_of_mem i (hh x hx').1, (hh x hx').2⟩
    · have h1' : jsStartsWith i "/" = false := by
        cases hx : jsStartsWith i "/"
        · rfl
        · exact absurd hx h1
      have hstep : processImport st i = { st with bare := insertSet i st.bare } := by
        unfold processImport
        rw [if_pos (by simp [h1'])]
      rw [List.foldl_cons, hstep]
      obtain ⟨fresh, ha, hb, hc, hd, he, hf, hg, hh⟩ :=
        ih { st with bare := insertSet i st.bare }
      refine ⟨fresh, ha, hb, hc, hd, ?_, hf, hg, ?_⟩
      · refine le_trans ?_ he
        unfold insertSet
        split
        · exact le_refl _
        · simp
      · exact fun x hx => ⟨List.mem_cons_of_mem i (hh x hx).1, (hh x hx).2⟩

/-- A successful flush only appends to the discovered set and drains the
queue completely. -/
theorem flushFileQueue_ok_facts (load : LoadOp) (pk : String) (ig : Bool)
    (opts : LoadOpts) : ∀ (n : Nat) (st st' : CrawlState),
    flushFileQueue load pk ig opts n st = some (Except.ok st') →
    st.unique <+: st'.unique ∧ st'.queue = [] := by
  intro n
  induction n with
  | zero => intro st st' heq; cases heq
  | succ n ih =>
    intro st st' heq
    rw [flushFileQueue] at heq
    cases hq : st.queue with
    | nil =>
      rw [hq] at heq
      simp at heq
      rw [← heq]
      exact ⟨List.prefix_refl _, hq⟩
    | cons u rest =>
      rw [hq] at heq
      simp only at heq
      by_cases hskip : (ig && jsStartsWith u pk) = true
      · rw [if_pos hskip] at heq
        exact ih { st with queue := rest, processed := u :: st.processed } st' heq
      · rw [if_neg hskip] at heq
        cases hld : load opts u with
        | error err => rw [hld] at heq; simp at heq
        | ok res =>
          rw [hld] at heq
          simp only at heq
          obtain ⟨fresh, ha, _, _, _, _, _, _, _⟩ :=
            foldl_processImport_spec res.2
              { st with queue := rest, processed := u :: st.processed,
                        written := (u, res.1) :: st.written }
          have hih := ih _ _ heq
          refine ⟨?_, hih.2⟩
          have h1 : st.unique <+:
              (res.2.foldl processImport
                { st with queue := rest, processed := u :: st.processed,
                          written := (u, res.1) :: st.written }).unique := by
            rw [ha]
            exact List.prefix_append _ _
          exact h1.trans hih.1

/-- Under the invariant that the queue has no duplicates, everything queued
or already processed is discovered, and nothing queued was already
processed, a successful flush pops each URL at most once: the processed
history stays duplicate-free. -/
theorem flushFileQueue_processed_nodup (load : LoadOp) (pk : String) (ig : Bool)
    (opts : LoadOpts) : ∀ (n : Nat) (st st' : CrawlState),
    flushFileQueue load pk ig opts n st = some (Except.ok st') →
    st.queue.Nodup → st.unique.Nodup → st.processed.Nodup →
    (∀ u ∈ st.queue, u ∈ st.unique) → (∀ u ∈ st.processed, u ∈ st.unique) →
    (∀ u ∈ st.queue, u ∉ st.processed) →
    st'.processed.Nodup := by
  intro n
  induction n with
  | zero => intro st st' heq; cases heq
  | succ n ih =>
    intro st st' heq hqnd hund hpnd hqu hpu hqp
    rw [flushFileQueue] at heq
    cases hq : st.queue with
    | nil =>
      rw [hq] at heq
      simp at heq
      rw [← heq]
      exact hpnd
    | cons u rest =>
      rw [hq] at heq
      simp only at heq
      have hrestnd : rest.Nodup := (hq ▸ hqnd).of_cons
      have hunotrest : u ∉ rest := by
        have := hq ▸ hqnd
        exact (List.nodup_cons.mp this).1
      have huinuniq : u ∈ st.unique := hqu u (by rw [hq]; simp)
      have hunotproc : u ∉ st.processed := hqp u (by rw [hq]; simp)
      have hpnd0 : (u :: st.processed).Nodup := List.nodup_cons.mpr ⟨hunotproc, hpnd⟩
      have hpu0 : ∀ x ∈ u :: st.processed, x ∈ st.unique := by
        intro x hx
        rcases List.mem_cons.mp hx with rfl | hx'
        · exact huinuniq
        · exact hpu x hx'
      have hqp0 : ∀ x ∈ rest, x ∉ u :: st.processed := by
        intro x hx
        rw [List.mem_cons]
        rintro (rfl | hx')
        · exact hunotrest hx
        · exact hqp x (by rw [hq]; simp [hx]) hx'
      by_cases hskip : (ig && jsStartsWith u pk) = true
      · rw [if_pos hskip] at heq
        exact ih _ _ heq hrestnd hund hpnd0
          (fun x hx => hqu x (by rw [hq]; simp [hx])) hpu0 hqp0
      · rw [if_neg hskip] at heq
        cases hld : load opts u with
        | error err => rw [hld] at heq; simp at heq
        | ok res =>
          rw [hld] at heq
          simp only at heq
          set stw : CrawlState :=
            { st with queue := rest, processed := u :: st.processed,
                      written := (u, res.1) :: st.written } with hstw
          obtain ⟨fresh, ha, hb, _, hd, _, hf, hg, _⟩ :=
            foldl_processImport_spec res.2 stw
          apply ih _ _ heq
          · rw [hb]
            refine List.nodup_append.mpr ⟨List.nodup_reverse.mpr hf, hrestnd, ?_⟩
            intro x hx hx'
            have hx1 : x ∈ fresh := List.mem_reverse.mp hx
            exact hg x hx1 (hqu x (by rw [hq]; simp [hx']))
          · rw [ha]
            refine List.nodup_append.mpr ⟨hund, hf, ?_⟩
            intro x hx hx'
            exact hg x hx' hx
          · rw [hd]
            exact hpnd0
          · rw [hb, ha]
            intro x hx
            rcases List.mem_append.mp hx with hx' | hx'
            · exact List.mem_append_right _ (List.mem_reverse.mp hx')
            · exact List.mem_append_left _ (hqu x (by rw [hq]; simp [hx']))
          · rw [hd, ha]
            intro x hx
            exact List.mem_append_left _ (hpu0 x hx)
          · rw [hb, hd]
            intro x hx
            rcases List.mem_append.mp hx with hx' | hx'
            · intro hcon
              exact hg x (List.mem_reverse.mp hx') (hpu0 x hcon)
            · exact hqp0 x hx'

/-- C2, counterexample: without the precondition that every queued URL is
already discovered, a URL can be popped twice in one flush. Seeding the
queue with the undiscovered URL `/b` (exactly what the watch-mode handler
does) where `/b` imports `/c` and `/c` imports `/b` makes the loop process
`/b` twice in a single pass. -/
theorem c2_flush_loop_counterexample :
    flushFileQueue
      (fun _ u => if u = "/b" then Except.ok ("", ["/c"])
        else if u = "/c" then Except.ok ("", ["/b"]) else Except.ok ("", []))
      "/_snowpack/pkg/" true ⟨false, false, true, none⟩ 4 ⟨["/b"], [], [], [], []⟩ =
      some (Except.ok ⟨[], ["/c", "/b"], [],
        [("/b", ""), ("/c", ""), ("/b", "")], ["/b", "/c", "/b"]⟩) ∧
    ¬ (["/b", "/c", "/b"] : List String).Nodup := by
  constructor
  · decide
  · decide

/-- C2 (amended): each specifier returned by the load operation is handled
exactly as claimed (bare specifiers are inserted into the bare set; local
specifiers are added to the discovered set and pushed only when new), and
the discovered set only grows during a flush; the per-pass at-most-once
processing property additionally requires that the starting queue has no
duplicates and is contained in the discovered set (true for both build
passes, but not for watch-mode seeds, as the counterexample shows). -/
theorem c2_flush_loop_amended :
    (∀ (st : CrawlState) (importedUrl : String),
      (jsStartsWith importedUrl "/" = false →
        processImport st importedUrl = { st with bare := insertSet importedUrl st.bare }) ∧
      (jsStartsWith importedUrl "/" = true → importedUrl ∈ st.unique →
        processImport st importedUrl = st) ∧
      (jsStartsWith importedUrl "/" = true → importedUrl ∉ st.unique →
        processImport st importedUrl =
          { st with unique := st.unique ++ [importedUrl],
                    queue := importedUrl :: st.queue })) ∧
    (∀ (load : LoadOp) (pk : String) (ig : Bool) (opts : LoadOpts) (n : Nat)
      (st st' : CrawlState),
      flushFileQueue load pk ig opts n st = some (Except.ok st') →
      st.unique <+: st'.unique) ∧
    (∀ (load : LoadOp) (pk : String) (ig : Bool) (opts : LoadOpts) (n : Nat)
      (st st' : CrawlState),
      flushFileQueue load pk ig opts n st = some (Except.ok st') →
      st.queue.Nodup → st.unique.Nodup → st.processed.Nodup →
      (∀ u ∈ st.queue, u ∈ st.unique) → (∀ u ∈ st.processed, u ∈ st.unique) →
      (∀ u ∈ st.queue, u ∉ st.processed) →
      st'.processed.Nodup) := by
  refine ⟨?_, ?_, ?_⟩
  · intro st importedUrl
    refine ⟨?_, ?_, ?_⟩
    · intro h
      unfold processImport
      rw [if_pos (by simp [h])]
    · intro h1 h2
      unfold processImport
      rw [if_neg (by simp [h1]), if_pos h2]
    · intro h1 h2
      unfold processImport
      rw [if_neg (by simp [h1]), if_neg h2]
  · intro load pk ig opts n st st' heq
    exact (flushFileQueue_ok_facts load pk ig opts n st st' heq).1
  · intro load pk ig opts n st st' heq h1 h2 h3 h4 h5 h6
    exact flushFileQueue_processed_nodup load pk ig opts n st st' heq h1 h2 h3 h4 h5 h6

/-- C2 witness: the three specifier cases, the growth of the discovered
set, and the at-most-once property evaluated on a concrete two-file crawl
(`/a` imports `/b` and the bare specifier `lodash`). -/
theorem c2_flush_loop_witness :
    processImport ⟨[], ["/a"], [], [], []⟩ "lodash" =
      { queue := [], unique := ["/a"], bare := ["lodash"], written := [],
        processed := [] } ∧
    (["/a"] : List String) <+: ["/a", "/b"] ∧
    (["/b", "/a"] : List String).Nodup := by
  have hload : flushFileQueue
      (fun _ u => if u = "/a" then Except.ok ("c", ["/b", "lodash"])
        else Except.ok ("", []))
      "/_snowpack/pkg/" false ⟨false, false, false, none⟩ 3
      ⟨["/a"], ["/a"], [], [], []⟩ =
      some (Except.ok ⟨[], ["/a", "/b"], ["lodash"],
        [("/b", ""), ("/a", "c")], ["/b", "/a"]⟩) := by decide
  refine ⟨?_, ?_, ?_⟩
  · exact (c2_flush_loop_amended.1 ⟨[], ["/a"], [], [], []⟩ "lodash").1 (by decide)
  · exact c2_flush_loop_amended.2.1 _ _ _ _ 3 ⟨["/a"], ["/a"], [], [], []⟩
      ⟨[], ["/a", "/b"], ["lodash"], [("/b", ""), ("/a", "c")], ["/b", "/a"]⟩ hload
  · exact c2_flush_loop_amended.2.2 _ _ _ _ 3 ⟨["/a"], ["/a"], [], [], []⟩
      ⟨[], ["/a", "/b"], ["lodash"], [("/b", ""), ("/a", "c")], ["/b", "/a"]⟩ hload
      (by decide) (by decide) (by decide) (by decide) (by decide) (by decide)

/-- A duplicate-free list of members of a finite set is no longer than the
set's cardinality. -/
theorem nodup_subset_length_le (l : List String) (U : Finset String)
    (hnd : l.Nodup) (hsub : ∀ x ∈ l, x ∈ U) : l.length ≤ U.card := by
  have h1 : l.toFinset.card = l.length := List.toFinset_card_of_nodup hnd
  have h2 : l.toFinset ⊆ U := by
    intro x hx
    rw [List.mem_toFinset] at hx
    exact hsub x hx
  calc l.length = l.toFinset.card := h1.symm
    _ ≤ U.card := Finset.card_le_card h2

/-- Termination measure argument for the flush loop: with fuel exceeding
`queue length + (|U| - |discovered|)` the loop completes. -/
theorem flushFileQueue_term_aux (load : LoadOp) (pk : String) (ig : Bool)
    (opts : LoadOpts) (U : Finset String)
    (hload : ∀ o u c imps, load o u = Except.ok (c, imps) → ∀ i ∈ imps,
      jsStartsWith i "/" = true → i ∈ U) :
    ∀ (n : Nat) (st : CrawlState), st.unique.Nodup →
    (∀ u ∈ st.unique, u ∈ U) →
    st.queue.length + (U.card - st.unique.length) < n →
    ∃ r, flushFileQueue load pk ig opts n st = some r ∧
      ∀ st', r = Except.ok st' → st'.queue = [] := by
  intro n
  induction n with
  | zero => intro st _ _ hmu; omega
  | succ n ih =>
    intro st hnd hsub hmu
    cases hq : st.queue with
    | nil =>
      refine ⟨Except.ok st, ?_, ?_⟩
      · rw [flushFileQueue, hq]
      · intro st' hst'
        injection hst' with h
        rw [← h]
        exact hq
    | cons u rest =>
      have hlen : st.queue.length = rest.length + 1 := by rw [hq]; simp
      by_cases hskip : (ig && jsStartsWith u pk) = true
      · obtain ⟨r, hr, hp⟩ := ih
          { st with queue := rest, processed := u :: st.processed }
          hnd hsub (by simp only []; omega)
        refine ⟨r, ?_, hp⟩
        rw [flushFileQueue, hq]
        simp only [if_pos hskip]
        exact hr
      · cases hld : load opts u with
        | error err =>
          refine ⟨Except.error err, ?_, ?_⟩
          · rw [flushFileQueue, hq]
            simp only [if_neg hskip, hld]
          · intro st' hst'
            cases hst'
        | ok res =>
          set stw : CrawlState :=
            { st with queue := rest, processed := u :: st.processed,
                      written := (u, res.1) :: st.written } with hstw
          obtain ⟨fresh, ha, hb, _, _, _, hf, hg, hh⟩ :=
            foldl_processImport_spec res.2 stw
          set st1 := res.2.foldl processImport stw with hst1
          have hnd1 : st1.unique.Nodup := by
            rw [ha]
            refine List.nodup_append.mpr ⟨hnd, hf, ?_⟩
            intro x hx hx'
            exact hg x hx' hx
          have hsub1 : ∀ x ∈ st1.unique, x ∈ U := by
            rw [ha]
            intro x hx
            rcases List.mem_append.mp hx with hx' | hx'
            · exact hsub x hx'
            · exact hload opts u res.1 res.2 (by rw [hld]) x (hh x hx').1 (hh x hx').2
          have hcard : st1.unique.length ≤ U.card :=
            nodup_subset_length_le _ U hnd1 hsub1
          have hq1 : st1.queue.length = fresh.length + rest.length := by
            rw [hb]
            simp
          have hu1 : st1.unique.length = st.unique.length + fresh.length := by
            rw [ha]
            simp
          obtain ⟨r, hr, hp⟩ := ih st1 hnd1 hsub1 (by omega)
          refine ⟨r, ?_, hp⟩
          rw [flushFileQueue, hq]
          simp only [if_neg hskip, hld]
          exact hr

/-- C8: the flush loop terminates for every starting state, with an empty
queue whenever it completes successfully, provided the load operation is
total (it is a function here) and every local specifier it can return lies
in a finite universe `U` of file URLs. -/
theorem c8_flush_termination (load : LoadOp) (pk : String) (ig : Bool)
    (opts : LoadOpts) (U : Finset String) (st : CrawlState)
    (hload : ∀ o u c imps, load o u = Except.ok (c, imps) → ∀ i ∈ imps,
      jsStartsWith i "/" = true → i ∈ U)
    (hnd : st.unique.Nodup) (hsub : ∀ u ∈ st.unique, u ∈ U) :
    ∃ (n : Nat) (r : Except String CrawlState),
      flushFileQueue load pk ig opts n st = some r ∧
      ∀ st', r = Except.ok st' → st'.queue = [] := by
  obtain ⟨r, hr, hp⟩ := flushFileQueue_term_aux load pk ig opts U hload
    (st.queue.length + (U.card - st.unique.length) + 1) st hnd hsub (by omega)
  exact ⟨st.queue.length + (U.card - st.unique.length) + 1, r, hr, hp⟩

/-- C8 witness: termination on a concrete crawl over the universe
`{/a, /b}` where every file imports `/b`. -/
theorem c8_flush_termination_witness :
    ∃ (n : Nat) (r : Except String CrawlState),
      flushFileQueue (fun _ _ => Except.ok ("", ["/b"])) "/_snowpack/pkg/" false
        ⟨false, false, false, none⟩ n ⟨["/a"], ["/a"], [], [], []⟩ = some r ∧
      ∀ st', r = Except.ok st' → st'.queue = [] := by
  apply c8_flush_termination (fun _ _ => Except.ok ("", ["/b"])) "/_snowpack/pkg/"
    false ⟨false, false, false, none⟩ ({"/a", "/b"} : Finset String)
    ⟨["/a"], ["/a"], [], [], []⟩
  · intro o u c imps h i hi hstart
    injection h with h'
    have h2 : imps = ["/b"] := congrArg Prod.snd h'.symm
    rw [h2] at hi
    rcases List.mem_singleton.mp hi with rfl
    decide
  · decide
  · intro u hu
    rcases List.mem_singleton.mp hu with rfl
    decide

/-- C3: in a completed build, the package-installation step runs (receiving
the full bare-specifier set collected by pass 1) exactly when watch mode is
off; pass 2 starts from the entire discovered set (which extends the mounted
seed URLs), runs with resolution enabled and the produced import map, and
ignores package URLs exactly when watch mode is off. -/
theorem c3_two_pass_controller (cfg : BuildConfig) (install : List String → ImportMap)
    (load : LoadOp) (allFileUrls : List String) (fuel : Nat) (r : BuildRun)
    (heq : build cfg install load allFileUrls fuel = some (Except.ok r)) :
    (cfg.watch = false → r.installedWith = some r.pass1Final.bare ∧
      r.optimizedImportMap = some (install r.pass1Final.bare) ∧
      r.pass2Call.ignorePkg = true) ∧
    (cfg.watch = true → r.installedWith = none ∧ r.optimizedImportMap = none ∧
      r.pass2Call.ignorePkg = false) ∧
    r.pass2Call.opts.isResolve = true ∧
    r.pass2Call.opts.importMap = r.optimizedImportMap ∧
    r.pass2Call.initialQueue = r.pass1Final.unique.reverse ∧
    dedup allFileUrls <+: r.pass1Final.unique := by
  simp only [build] at heq
  split at heq
  · cases heq
  · exact absurd heq (by simp)
  · rename_i st1 h1
    split at heq
    · cases heq
    · exact absurd heq (by simp)
    · rename_i st3 h3
      simp only [Option.some.injEq, Except.ok.injEq] at heq
      subst heq
      refine ⟨?_, ?_, rfl, rfl, rfl, ?_⟩
      · intro hw
        simp [hw]
      · intro hw
        simp [hw]
      · exact (flushFileQueue_ok_facts load cfg.pkgUrlPre false
          ⟨cfg.isSSR, cfg.isHMR, false, none⟩ fuel
          ⟨(dedup allFileUrls).reverse, dedup allFileUrls, [], [], []⟩ st1 h1).1

/-- C3 witness: the controller facts evaluated on a non-watch build of one
mounted file `/a` importing `/b` and the bare specifier `lodash`. -/
theorem c3_two_pass_controller_witness :
    ((false = false →
      (some ["lodash"] : Option (List String)) =
        some (⟨[], ["/a", "/b"], ["lodash"], [("/b", ""), ("/a", "c")],
          ["/b", "/a"]⟩ : CrawlState).bare ∧
      (some (⟨[]⟩ : ImportMap) : Option ImportMap) = some ⟨[]⟩ ∧
      (⟨true, ⟨false, false, true, some ⟨[]⟩⟩, ["/b", "/a"]⟩ : FlushCall).ignorePkg =
        true) ∧
    (false = true →
      (some ["lodash"] : Option (List String)) = none ∧
      (some (⟨[]⟩ : ImportMap) : Option ImportMap) = none ∧
      (⟨true, ⟨false, false, true, some ⟨[]⟩⟩, ["/b", "/a"]⟩ : FlushCall).ignorePkg =
        false) ∧
    (⟨true, ⟨false, false, true, some ⟨[]⟩⟩, ["/b", "/a"]⟩ : FlushCall).opts.isResolve =
      true ∧
    (⟨true, ⟨false, false, true, some ⟨[]⟩⟩, ["/b", "/a"]⟩ : FlushCall).opts.importMap =
      some ⟨[]⟩ ∧
    (⟨true, ⟨false, false, true, some ⟨[]⟩⟩, ["/b", "/a"]⟩ : FlushCall).initialQueue =
      (⟨[], ["/a", "/b"], ["lodash"], [("/b", ""), ("/a", "c")],
        ["/b", "/a"]⟩ : CrawlState).unique.reverse ∧
    dedup ["/a"] <+:
      (⟨[], ["/a", "/b"], ["lodash"], [("/b", ""), ("/a", "c")],
        ["/b", "/a"]⟩ : CrawlState).unique) :=
  c3_two_pass_controller ⟨false, false, false, "/_snowpack/pkg/"⟩ (fun _ => ⟨[]⟩)
    (fun _ u => if u = "/a" then Except.ok ("c", ["/b", "lodash"])
      else Except.ok ("", []))
    ["/a"] 4
    ⟨⟨[], ["/a", "/b"], ["lodash"], [("/b", ""), ("/a", "c")], ["/b", "/a"]⟩,
      some ["lodash"], some ⟨[]⟩,
      ⟨true, ⟨false, false, true, some ⟨[]⟩⟩, ["/b", "/a"]⟩,
      ⟨[], ["/a", "/b"], ["lodash"],
        [("/a", "c"), ("/b", ""), ("/b", ""), ("/a", "c")],
        ["/a", "/b", "/b", "/a"]⟩⟩
    (by rfl)

/-- C4, counterexample: the watch-mode handler pushes the changed file's
URLs onto the queue but never inserts them into the discovered set. After a
change to a path mapping to the previously undiscovered URL `/b`, the crawl
has processed and written `/b`, yet the discovered set is still `["/a"]` —
the claim's "added to DiscoveredSet if not already present" does not happen. -/
theorem c4_watch_file_change_counterexample :
    onFileChangeHandler (fun _ _ => Except.ok ("", []))
      ⟨true, false, false, "/_snowpack/pkg/"⟩ none (fun _ => ["/b"]) 2
      ⟨[], ["/a"], [], [], []⟩ "src/b.js" =
      some (Except.ok ⟨⟨["/b"], ["/a"], [], [], []⟩,
        ⟨true, ⟨false, false, true, none⟩, ["/b"]⟩,
        ⟨[], ["/a"], [], [("/b", "")], ["/b"]⟩, 1⟩) ∧
    "/b" ∉ (⟨[], ["/a"], [], [("/b", "")], ["/b"]⟩ : CrawlState).unique ∧
    "/b" ∈ (⟨[], ["/a"], [], [("/b", "")], ["/b"]⟩ : CrawlState).processed := by
  refine ⟨by rfl, by decide, by decide⟩

/-- C4 (amended): on a file-change notification every mapped FileURL is
pushed onto the work queue unconditionally; the discovered set is not
touched by the push (it can grow only through imports found during the
crawl); exactly one crawl runs, with ignorePackageUrls = true, resolution
enabled and the existing (possibly absent) import map; and the registered
callback is invoked exactly once, after that crawl. -/
theorem c4_watch_file_change_amended (load : LoadOp) (cfg : BuildConfig)
    (im : Option ImportMap) (getUrlsForFile : String → List String) (fuel : Nat)
    (st : CrawlState) (filePath : String) (r : HandlerRun)
    (heq : onFileChangeHandler load cfg im getUrlsForFile fuel st filePath =
      some (Except.ok r)) :
    r.preFlushState.unique = st.unique ∧
    r.preFlushState.queue =
      (getUrlsForFile filePath).foldl (fun q u => u :: q) st.queue ∧
    r.flushCall = ⟨true, ⟨cfg.isSSR, cfg.isHMR, true, im⟩, r.preFlushState.queue⟩ ∧
    r.callbackCount = 1 ∧
    st.unique <+: r.finalState.unique := by
  simp only [onFileChangeHandler] at heq
  split at heq
  · cases heq
  · exact absurd heq (by simp)
  · rename_i st2 h2
    simp only [Option.some.injEq, Except.ok.injEq] at heq
    subst heq
    refine ⟨rfl, rfl, rfl, rfl, ?_⟩
    exact (flushFileQueue_ok_facts load cfg.pkgUrlPre true
      ⟨cfg.isSSR, cfg.isHMR, true, im⟩ fuel
      { st with queue := (getUrlsForFile filePath).foldl (fun q u => u :: q) st.queue }
      st2 h2).1

/-- C4 witness: the amended handler facts evaluated on the concrete change
event of the counterexample. -/
theorem c4_watch_file_change_witness :
    (⟨["/b"], ["/a"], [], [], []⟩ : CrawlState).unique =
      (⟨[], ["/a"], [], [], []⟩ : CrawlState).unique ∧
    (⟨["/b"], ["/a"], [], [], []⟩ : CrawlState).queue =
      (["/b"] : List String).foldl (fun q u => u :: q)
        (⟨[], ["/a"], [], [], []⟩ : CrawlState).queue ∧
    (⟨true, ⟨false, false, true, none⟩, ["/b"]⟩ : FlushCall) =
      ⟨true, ⟨false, false, true, none⟩,
        (⟨["/b"], ["/a"], [], [], []⟩ : CrawlState).queue⟩ ∧
    (1 : Nat) = 1 ∧
    (⟨[], ["/a"], [], [], []⟩ : CrawlState).unique <+:
      (⟨[], ["/a"], [], [("/b", "")], ["/b"]⟩ : CrawlState).unique :=
  c4_watch_file_change_amended (fun _ _ => Except.ok ("", []))
    ⟨true, false, false, "/_snowpack/pkg/"⟩ none (fun _ => ["/b"]) 2
    ⟨[], ["/a"], [], [], []⟩ "src/b.js"
    ⟨⟨["/b"], ["/a"], [], [], []⟩, ⟨true, ⟨false, false, true, none⟩, ["/b"]⟩,
      ⟨[], ["/a"], [], [("/b", "")], ["/b"]⟩, 1⟩
    (by rfl)

/-- C7: transformFileImports fails (with the IncompatibleFileType error)
exactly when the extension is none of .js, .html, .css; and a build that
throws makes the command exit with code 1, aborting the enclosing build. -/
theorem c7_incompatible_filetype :
    (∀ (parseEsm : List Char → List EsmImport) (file : SnowpackSourceFile)
      (replaceImport : List Char → List Char),
      (∃ e, transformFileImports parseEsm file replaceImport = Except.error e) ↔
      (file.baseExt ≠ ".js" ∧ file.baseExt ≠ ".html" ∧ file.baseExt ≠ ".css")) ∧
    (∀ (cfg : BuildConfig) (install : List String → ImportMap) (load : LoadOp)
      (allFileUrls : List String) (fuel : Nat) (e : String),
      build cfg install load allFileUrls fuel = some (Except.error e) →
      command cfg install load allFileUrls fuel = some (CommandOutcome.exited 1)) := by
  constructor
  · intro parseEsm file replaceImport
    unfold transformFileImports
    split_ifs with h1 h2 h3
    · simp [h1]
    · simp [h2]
    · simp [h3]
    · simp [h1, h2, h3]
  · intro cfg install load allFileUrls fuel e heq
    unfold command
    rw [heq]

/-- C7 witness: a `.svelte` file fails, and a build whose load operation
throws makes the command exit with code 1. -/
theorem c7_incompatible_filetype_witness :
    (∃ e, transformFileImports (fun _ => []) ⟨".svelte", []⟩ (fun s => s) =
      Except.error e) ∧
    command ⟨false, false, false, "/_snowpack/pkg/"⟩ (fun _ => ⟨[]⟩)
      (fun _ _ => Except.error "boom") ["/a"] 4 =
      some (CommandOutcome.exited 1) :=
  ⟨(c7_incompatible_filetype.1 (fun _ => []) ⟨".svelte", []⟩ (fun s => s)).mpr
      (by decide),
    c7_incompatible_filetype.2 ⟨false, false, false, "/_snowpack/pkg/"⟩ (fun _ => ⟨[]⟩)
      (fun _ _ => Except.error "boom") ["/a"] 4 "boom" (by rfl)⟩

/-- C9, counterexample: the post-build cleanup also removes the output root
itself when it ends up empty. A root whose only entry is an empty
subdirectory is deleted entirely (`none`), not kept as an empty root. -/
theorem c9_remove_empty_folders_counterexample :
    removeEmptyFolders (FSEntry.dir [("sub", FSEntry.dir [])]) = none ∧
    (none : Option FSEntry) ≠ some (FSEntry.dir []) := by
  refine ⟨rfl, by simp⟩

/-- Helper for the cleanup characterisation: mutual strong induction on the
size of the tree and of directory listings. -/
theorem removeEmptyFolders_aux : ∀ n : Nat,
    (∀ t : FSEntry, sizeOf t ≤ n →
      (removeEmptyFolders t = none ↔ hasNoFile t = true)) ∧
    (∀ l : List (String × FSEntry), sizeOf l ≤ n →
      (cleanEntries l = [] ↔ entriesNoFile l = true)) := by
  intro n
  induction n using Nat.strong_induction_on with
  | _ n ih =>
    constructor
    · intro t ht
      cases t with
      | file => simp [removeEmptyFolders, hasNoFile]
      | dir es =>
        have hsz : sizeOf es < n := by
          have : sizeOf (FSEntry.dir es) = 1 + sizeOf es := by simp
          omega
        have hlist := (ih (sizeOf es) hsz).2 es le_rfl
        have hcl : removeEmptyFolders (FSEntry.dir es) = none ↔ cleanEntries es = [] := by
          cases h : cleanEntries es with
          | nil => simp [removeEmptyFolders, h]
          | cons a as => simp [removeEmptyFolders, h]
        rw [hcl, hlist]
        simp [hasNoFile]
    · intro l hl
      cases l with
      | nil => simp [cleanEntries, entriesNoFile]
      | cons p rest =>
        obtain ⟨nm, c⟩ := p
        have hszc : sizeOf c < n := by
          have : sizeOf ((nm, c) :: rest) = 1 + (1 + sizeOf nm + sizeOf c) + sizeOf rest := by
            simp
          omega
        have hszr : sizeOf rest < n := by
          have : sizeOf ((nm, c) :: rest) = 1 + (1 + sizeOf nm + sizeOf c) + sizeOf rest := by
            simp
          have hc1 : 1 ≤ sizeOf c := by
            cases c <;> simp
          omega
        have hentry := (ih (sizeOf c) hszc).1 c le_rfl
        have hrest := (ih (sizeOf rest) hszr).2 rest le_rfl
        have hsplit : cleanEntries ((nm, c) :: rest) = [] ↔
            removeEmptyFolders c = none ∧ cleanEntries rest = [] := by
          cases h : removeEmptyFolders c with
          | none => simp [cleanEntries, h]
          | some c' => simp [cleanEntries, h]
        rw [hsplit, hentry, hrest]
        simp [entriesNoFile, Bool.and_eq_true]

/-- C9 (amended): after the cleanup a directory is removed exactly when it
contains no file anywhere beneath it (equivalently, when after recursively
cleaning its children it has zero entries) — and this applies to every
directory including the build output root itself, which is also removed
when it ends up empty. -/
theorem c9_remove_empty_folders_amended (t : FSEntry) :
    removeEmptyFolders t = none ↔ hasNoFile t = true :=
  (removeEmptyFolders_aux (sizeOf t)).1 t le_rfl

end Snowpack
